import Mathlib

/-!
# Verification of the KFX-Highlights annotation engine

Shallow embedding of the Python sources of `KFX-Highlights`
(`extract_highlights.py`, `extract_highlights_kfxlib.py`,
`extract_highlights_azw3.py`, `extract_highlights_mobi.py`,
`extract_highlights_htmlz.py`) together with theorems settling the claims
of the specification.

Modelling conventions:
* Python `int` values (annotation offsets) are modelled as `Int`.
* Python `float` modification times and similarity scores are modelled as
  exact rationals `ℚ`; the comparisons the claims exercise (differences of
  1.5 / 2.5 against 2.0, scores 0.79 / 0.80) are exact in binary floating
  point, so the rational model agrees with the Python semantics there.
* Byte buffers (`bytes`) are modelled as `List Char`; the sources only
  compare single bytes against ASCII literals, where the byte/char
  distinction is immaterial.
* A Python exception escaping a function is modelled by `Option`/`none`.
-/

/-! ## Python string primitives -/

/-- The whitespace characters stripped by Python's `str.strip()` /
matched by `\s` in `re` (ASCII range). -/
def pyIsSpace (c : Char) : Bool :=
  c = ' ' ∨ c = '\t' ∨ c = '\n' ∨ c = '\r' ∨ c = Char.ofNat 11 ∨ c = Char.ofNat 12

/-- Python `str.strip()` on a list of characters. -/
def pyStripList (l : List Char) : List Char :=
  ((l.dropWhile pyIsSpace).reverse.dropWhile pyIsSpace).reverse

/-- Python `str.strip()`. -/
def pyStrip (s : String) : String :=
  String.mk (pyStripList s.data)

/-- Value of a nonempty list of decimal digits; `none` if any character is
not a digit (or the list is empty). -/
def digitsVal : List Char → Option Nat
  | [] => none
  | [c] => if c.isDigit then some (c.toNat - '0'.toNat) else none
  | c :: rest =>
    if c.isDigit then
      (digitsVal rest).map (fun n => (c.toNat - '0'.toNat) * 10 ^ rest.length + n)
    else none

/-! ## Annotation records

`annotation.personal.highlight` / `annotation.personal.note` records from
the annotation-cache JSON, restricted to the fields the scripts read. -/

structure Ann where
  startPosition : String
  endPosition : String
  creationTime : String
deriving DecidableEq, Repr

structure Note where
  startPosition : String
  endPosition : String
  note : String
deriving DecidableEq, Repr

/-! ## Range Reconciler: the deduplication sweep

All four extractors contain the identical sweep (e.g.
`extract_highlights_kfxlib.py` lines 412-425, `extract_highlights_azw3.py`
lines 295-307):

```
deduped = []
for ann in annotations:
    s, e = ...
    if deduped:
        ps, pe, _ = deduped[-1]
        if s >= ps and e <= pe:
            continue  # fully contained, skip
        if ps >= s and pe <= e:
            deduped[-1] = (s, e, ann)
            continue
    deduped.append((s, e, ann))
```

The loop only ever inspects and replaces `deduped[-1]`; earlier entries are
final.  `sweepAux last rest` carries `deduped[-1]` as `last` and emits the
committed prefix through the recursion. -/

def sweepAux {α : Type} (last : Int × Int × α) :
    List (Int × Int × α) → List (Int × Int × α)
  | [] => [last]
  | r :: rs =>
    if r.1 ≥ last.1 ∧ r.2.1 ≤ last.2.1 then
      sweepAux last rs
    else if last.1 ≥ r.1 ∧ last.2.1 ≤ r.2.1 then
      sweepAux r rs
    else
      last :: sweepAux r rs

/-- The deduplication sweep over the (already sorted) annotation list. -/
def dedupSweep {α : Type} : List (Int × Int × α) → List (Int × Int × α)
  | [] => []
  | r :: rs => sweepAux r rs

/-- Stable insertion into a list sorted by start offset (`x` goes before the
first element whose start is ≥ `x`'s, matching the stability of Python's
`list.sort`). -/
def insertByStart {α : Type} (x : Int × Int × α) :
    List (Int × Int × α) → List (Int × Int × α)
  | [] => [x]
  | y :: ys => if x.1 ≤ y.1 then x :: y :: ys else y :: insertByStart x ys

/-- `annotations.sort(key=lambda a: start)`: a stable sort by start
offset. -/
def sortByStart {α : Type} : List (Int × Int × α) → List (Int × Int × α)
  | [] => []
  | x :: xs => insertByStart x (sortByStart xs)

/-- The full Range Reconciler range stage: sort by start offset, then run
the deduplication sweep. -/
def dedupAnnotations {α : Type} (l : List (Int × Int × α)) :
    List (Int × Int × α) :=
  dedupSweep (sortByStart l)

/-- `rangeContains outer inner`: the range `outer` fully contains `inner`
(the containment test of the sweep: `inner.start >= outer.start and
inner.end <= outer.end`). -/
def rangeContains (outer inner : Int × Int) : Prop :=
  outer.1 ≤ inner.1 ∧ inner.2 ≤ outer.2

instance (outer inner : Int × Int) : Decidable (rangeContains outer inner) :=
  inferInstanceAs (Decidable (_ ∧ _))

/-- Two closed ranges intersect. -/
def rangesOverlap (r1 r2 : Int × Int) : Prop :=
  r1.1 ≤ r2.2 ∧ r2.1 ≤ r1.2

/-! ### Lemmas about the sweep -/

theorem mem_insertByStart {α : Type} (x : Int × Int × α) (l : List (Int × Int × α))
    (y : Int × Int × α) : y ∈ insertByStart x l ↔ y = x ∨ y ∈ l := by
  induction l with
  | nil => simp [insertByStart]
  | cons z zs ih =>
    by_cases h : x.1 ≤ z.1
    · simp [insertByStart, h]
    · simp only [insertByStart, if_neg h, List.mem_cons, ih]
      tauto

theorem mem_sortByStart {α : Type} (l : List (Int × Int × α)) (y : Int × Int × α) :
    y ∈ sortByStart l ↔ y ∈ l := by
  induction l with
  | nil => simp [sortByStart]
  | cons z zs ih =>
    simp [sortByStart, mem_insertByStart, ih]

theorem pairwise_insertByStart {α : Type} (x : Int × Int × α)
    (l : List (Int × Int × α))
    (h : List.Pairwise (fun a b : Int × Int × α => a.1 ≤ b.1) l) :
    List.Pairwise (fun a b : Int × Int × α => a.1 ≤ b.1) (insertByStart x l) := by
  induction l with
  | nil => simp [insertByStart]
  | cons z zs ih =>
    rw [List.pairwise_cons] at h
    obtain ⟨hz, hzs⟩ := h
    by_cases hx : x.1 ≤ z.1
    · rw [insertByStart, if_pos hx, List.pairwise_cons]
      refine ⟨?_, List.pairwise_cons.mpr ⟨hz, hzs⟩⟩
      intro b hb
      rcases List.mem_cons.mp hb with rfl | hb
      · exact hx
      · exact le_trans hx (hz b hb)
    · rw [insertByStart, if_neg hx, List.pairwise_cons]
      refine ⟨?_, ih hzs⟩
      intro b hb
      rcases (mem_insertByStart x zs b).mp hb with rfl | hb
      · omega
      · exact hz b hb

theorem pairwise_sortByStart {α : Type} (l : List (Int × Int × α)) :
    List.Pairwise (fun a b : Int × Int × α => a.1 ≤ b.1) (sortByStart l) := by
  induction l with
  | nil => simp [sortByStart]
  | cons z zs ih => exact pairwise_insertByStart z (sortByStart zs) ih

/-- Core invariant of the sweep: on a start-sorted input whose elements all
start at or after `last`, the output is a chain with strictly increasing
starts *and* strictly increasing ends, and every output element is bounded
below (in both coordinates) by `last`. -/
theorem sweepAux_invariant {α : Type} (rest : List (Int × Int × α)) :
    ∀ last : Int × Int × α,
      (∀ x ∈ rest, last.1 ≤ x.1) →
      List.Pairwise (fun a b : Int × Int × α => a.1 ≤ b.1) rest →
      List.Pairwise (fun a b : Int × Int × α => a.1 < b.1 ∧ a.2.1 < b.2.1)
        (sweepAux last rest)
      ∧ ∀ y ∈ sweepAux last rest, last.1 ≤ y.1 ∧ last.2.1 ≤ y.2.1 := by
  induction rest with
  | nil =>
    intro last _ _
    constructor
    · simp [sweepAux]
    · intro y hy
      simp only [sweepAux, List.mem_singleton] at hy
      subst hy
      exact ⟨le_refl _, le_refl _⟩
  | cons r rs ih =>
    intro last hle hs
    rw [List.pairwise_cons] at hs
    obtain ⟨hr, hs'⟩ := hs
    have hlr : last.1 ≤ r.1 := hle r (List.mem_cons_self r rs)
    by_cases h1 : r.1 ≥ last.1 ∧ r.2.1 ≤ last.2.1
    · -- next range fully contained in the last kept one: skipped
      have heq : sweepAux last (r :: rs) = sweepAux last rs := by
        simp [sweepAux, h1]
      have hle' : ∀ x ∈ rs, last.1 ≤ x.1 := fun x hx => le_trans hlr (hr x hx)
      rw [heq]
      exact ih last hle' hs'
    · by_cases h2 : last.1 ≥ r.1 ∧ last.2.1 ≤ r.2.1
      · -- last kept contained in the next one: replaced
        have heq : sweepAux last (r :: rs) = sweepAux r rs := by
          simp [sweepAux, h1, h2]
        have hstart : last.1 = r.1 := le_antisymm hlr h2.1
        rw [heq]
        obtain ⟨hch, hbd⟩ := ih r hr hs'
        refine ⟨hch, fun y hy => ?_⟩
        obtain ⟨hy1, hy2⟩ := hbd y hy
        exact ⟨hstart ▸ hy1, le_trans h2.2 hy2⟩
      · -- neither contains the other: both kept
        have heq : sweepAux last (r :: rs) = last :: sweepAux r rs := by
          simp [sweepAux, h1, h2]
        have hendlt : last.2.1 < r.2.1 := by
          rcases not_and_or.mp h1 with hc | hc
          · omega
          · omega
        have hstartlt : last.1 < r.1 := by
          rcases not_and_or.mp h2 with hc | hc
          · omega
          · omega
        rw [heq]
        obtain ⟨hch, hbd⟩ := ih r hr hs'
        constructor
        · rw [List.pairwise_cons]
          refine ⟨fun y hy => ?_, hch⟩
          obtain ⟨hy1, hy2⟩ := hbd y hy
          exact ⟨lt_of_lt_of_le hstartlt hy1, lt_of_lt_of_le hendlt hy2⟩
        · intro y hy
          rcases List.mem_cons.mp hy with rfl | hy
          · exact ⟨le_refl _, le_refl _⟩
          · obtain ⟨hy1, hy2⟩ := hbd y hy
            exact ⟨le_trans (le_of_lt hstartlt) hy1,
                   le_trans (le_of_lt hendlt) hy2⟩

/-- Every element the sweep outputs is one of its inputs. -/
theorem sweepAux_subset {α : Type} (rest : List (Int × Int × α)) :
    ∀ last : Int × Int × α, ∀ y ∈ sweepAux last rest, y = last ∨ y ∈ rest := by
  induction rest with
  | nil =>
    intro last y hy
    simp only [sweepAux, List.mem_singleton] at hy
    exact Or.inl hy
  | cons r rs ih =>
    intro last y hy
    by_cases h1 : r.1 ≥ last.1 ∧ r.2.1 ≤ last.2.1
    · rw [show sweepAux last (r :: rs) = sweepAux last rs by simp [sweepAux, h1]] at hy
      rcases ih last y hy with h | h
      · exact Or.inl h
      · exact Or.inr (List.mem_cons_of_mem r h)
    · by_cases h2 : last.1 ≥ r.1 ∧ last.2.1 ≤ r.2.1
      · rw [show sweepAux last (r :: rs) = sweepAux r rs by simp [sweepAux, h1, h2]] at hy
        rcases ih r y hy with h | h
        · exact Or.inr (h ▸ List.mem_cons_self r rs)
        · exact Or.inr (List.mem_cons_of_mem r h)
      · rw [show sweepAux last (r :: rs) = last :: sweepAux r rs by
          simp [sweepAux, h1, h2]] at hy
        rcases List.mem_cons.mp hy with rfl | hy
        · exact Or.inl rfl
        · rcases ih r y hy with h | h
          · exact Or.inr (h ▸ List.mem_cons_self r rs)
          · exact Or.inr (List.mem_cons_of_mem r h)

/-- Strict two-sided chain for the full sort-then-sweep stage. -/
theorem dedupAnnotations_pairwise_strict {α : Type} (l : List (Int × Int × α)) :
    List.Pairwise (fun a b : Int × Int × α => a.1 < b.1 ∧ a.2.1 < b.2.1)
      (dedupAnnotations l) := by
  unfold dedupAnnotations
  have hs := pairwise_sortByStart l
  cases hsort : sortByStart l with
  | nil => simp [dedupSweep]
  | cons r rs =>
    rw [hsort] at hs
    rw [List.pairwise_cons] at hs
    exact (sweepAux_invariant rs r hs.1 hs.2).1

/-! ### Claim theorems C1 and C10 -/

/-- **C10.** For every input list of highlight ranges, the output of the
deduplication sweep (after the sort by start offset) is sorted ascending by
start offset, every output range is drawn from the input list, and no
output range is fully contained within any other output range of the list
(in either direction, for every pair, not only neighbours). -/
theorem C10_dedup_invariants {α : Type} (l : List (Int × Int × α)) :
    List.Pairwise (fun a b : Int × Int × α => a.1 ≤ b.1) (dedupAnnotations l)
    ∧ (∀ y ∈ dedupAnnotations l, y ∈ l)
    ∧ List.Pairwise
        (fun a b : Int × Int × α =>
          ¬ rangeContains (a.1, a.2.1) (b.1, b.2.1)
          ∧ ¬ rangeContains (b.1, b.2.1) (a.1, a.2.1))
        (dedupAnnotations l) := by
  have hstrict := dedupAnnotations_pairwise_strict l
  refine ⟨hstrict.imp (fun h => le_of_lt h.1), ?_, ?_⟩
  · intro y hy
    unfold dedupAnnotations at hy
    cases hsort : sortByStart l with
    | nil => rw [hsort] at hy; simp [dedupSweep] at hy
    | cons r rs =>
      rw [hsort] at hy
      have := sweepAux_subset rs r y hy
      have hmem : y ∈ sortByStart l := by
        rw [hsort]
        rcases this with rfl | h
        · exact List.mem_cons_self _ _
        · exact List.mem_cons_of_mem _ h
      exact (mem_sortByStart l y).mp hmem
  · refine hstrict.imp (fun h => ?_)
    unfold rangeContains
    constructor
    · intro hc
      exact absurd hc.2 (by simp only; omega)
    · intro hc
      exact absurd hc.1 (by simp only; omega)

/-- **C1.** For any two highlight ranges where one fully contains the
other, the Range Reconciler's sweep keeps exactly one of them, namely the
larger span; two ranges that only partially overlap both survive as
distinct highlights (partial overlaps are never merged). -/
theorem C1_sweep_two_ranges (s1 e1 s2 e2 : Int) (a1 a2 : Ann) :
    (rangeContains (s1, e1) (s2, e2) →
      dedupAnnotations [(s1, e1, a1), (s2, e2, a2)] = [(s1, e1, a1)])
    ∧ (¬ rangeContains (s1, e1) (s2, e2) → rangeContains (s2, e2) (s1, e1) →
      dedupAnnotations [(s1, e1, a1), (s2, e2, a2)] = [(s2, e2, a2)])
    ∧ (rangesOverlap (s1, e1) (s2, e2) →
      ¬ rangeContains (s1, e1) (s2, e2) → ¬ rangeContains (s2, e2) (s1, e1) →
      ((dedupAnnotations [(s1, e1, a1), (s2, e2, a2)]).length = 2
       ∧ (s1, e1, a1) ∈ dedupAnnotations [(s1, e1, a1), (s2, e2, a2)]
       ∧ (s2, e2, a2) ∈ dedupAnnotations [(s1, e1, a1), (s2, e2, a2)])) := by
  refine ⟨?_, ?_, ?_⟩
  · intro hc
    obtain ⟨h12, h21⟩ := hc
    simp only at h12 h21
    have hsort : dedupAnnotations [(s1, e1, a1), (s2, e2, a2)]
        = sweepAux (s1, e1, a1) [(s2, e2, a2)] := by
      simp [dedupAnnotations, sortByStart, insertByStart, dedupSweep, h12]
    rw [hsort]
    have hcond : ((s2, e2, a2) : Int × Int × Ann).1 ≥ ((s1, e1, a1) : Int × Int × Ann).1
        ∧ ((s2, e2, a2) : Int × Int × Ann).2.1 ≤ ((s1, e1, a1) : Int × Int × Ann).2.1 :=
      ⟨h12, h21⟩
    simp [sweepAux, hcond]
  · intro hn hc
    obtain ⟨h21, h12⟩ := hc
    simp only at h21 h12
    by_cases hle : s1 ≤ s2
    · have he : ¬ (e2 ≤ e1) := fun h => hn ⟨hle, h⟩
      have hsort : dedupAnnotations [(s1, e1, a1), (s2, e2, a2)]
          = sweepAux (s1, e1, a1) [(s2, e2, a2)] := by
        simp [dedupAnnotations, sortByStart, insertByStart, dedupSweep, hle]
      rw [hsort]
      have hcond1 : ¬ (((s2, e2, a2) : Int × Int × Ann).1 ≥ s1 ∧
          ((s2, e2, a2) : Int × Int × Ann).2.1 ≤ e1) := by
        simp only [not_and]
        intro _
        exact he
      have hcond2 : (s1 ≥ ((s2, e2, a2) : Int × Int × Ann).1 ∧
          e1 ≤ ((s2, e2, a2) : Int × Int × Ann).2.1) := ⟨h21, h12⟩
      simp [sweepAux, hcond1, hcond2]
    · have hsort : dedupAnnotations [(s1, e1, a1), (s2, e2, a2)]
          = sweepAux (s2, e2, a2) [(s1, e1, a1)] := by
        simp [dedupAnnotations, sortByStart, insertByStart, dedupSweep, hle]
      rw [hsort]
      have hcond : (((s1, e1, a1) : Int × Int × Ann).1 ≥ s2 ∧
          ((s1, e1, a1) : Int × Int × Ann).2.1 ≤ e2) := ⟨h21, h12⟩
      simp [sweepAux, hcond]
  · intro _ hn12 hn21
    simp only [rangeContains, not_and] at hn12 hn21
    by_cases hle : s1 ≤ s2
    · have he : ¬ (e2 ≤ e1) := hn12 hle
      have hs : ¬ (s2 ≤ s1) := by
        intro h
        exact hn21 h (by omega)
      have hsort : dedupAnnotations [(s1, e1, a1), (s2, e2, a2)]
          = sweepAux (s1, e1, a1) [(s2, e2, a2)] := by
        simp [dedupAnnotations, sortByStart, insertByStart, dedupSweep, hle]
      have heval : dedupAnnotations [(s1, e1, a1), (s2, e2, a2)]
          = [(s1, e1, a1), (s2, e2, a2)] := by
        rw [hsort]
        have hc1 : ¬ (((s2, e2, a2) : Int × Int × Ann).1 ≥ s1 ∧
            ((s2, e2, a2) : Int × Int × Ann).2.1 ≤ e1) := by
          simp only [not_and]
          intro _
          exact he
        have hc2 : ¬ (s1 ≥ ((s2, e2, a2) : Int × Int × Ann).1 ∧
            e1 ≤ ((s2, e2, a2) : Int × Int × Ann).2.1) := by
          simp only [not_and]
          intro h
          exact absurd h hs
        simp [sweepAux, hc1, hc2]
      rw [heval]
      refine ⟨rfl, by simp, by simp⟩
    · have hs : s2 < s1 := lt_of_not_le hle
      have he : ¬ (e1 ≤ e2) := hn21 (le_of_lt hs)
      have hsort : dedupAnnotations [(s1, e1, a1), (s2, e2, a2)]
          = sweepAux (s2, e2, a2) [(s1, e1, a1)] := by
        simp [dedupAnnotations, sortByStart, insertByStart, dedupSweep, hle]
      have heval : dedupAnnotations [(s1, e1, a1), (s2, e2, a2)]
          = [(s2, e2, a2), (s1, e1, a1)] := by
        rw [hsort]
        have hc1 : ¬ (((s1, e1, a1) : Int × Int × Ann).1 ≥ s2 ∧
            ((s1, e1, a1) : Int × Int × Ann).2.1 ≤ e2) := by
          simp only [not_and]
          intro _
          exact he
        have hc2 : ¬ (s2 ≥ ((s1, e1, a1) : Int × Int × Ann).1 ∧
            e2 ≤ ((s1, e1, a1) : Int × Int × Ann).2.1) := by
          simp only [not_and]
          intro h
          omega
        simp [sweepAux, hc1, hc2]
      rw [heval]
      refine ⟨rfl, by simp, by simp⟩

/-- Witness for C1 at concrete ranges: `(0,10)` fully contains `(2,5)` and
only `(0,10)` survives; `(0,5)` and `(3,8)` partially overlap and both
survive. -/
theorem C1_sweep_two_ranges_witness :
    dedupAnnotations [((0 : Int), (10 : Int), Ann.mk "a" "b" "c"),
        ((2 : Int), (5 : Int), Ann.mk "d" "e" "f")]
      = [((0 : Int), (10 : Int), Ann.mk "a" "b" "c")]
    ∧ (dedupAnnotations [((0 : Int), (5 : Int), Ann.mk "a" "b" "c"),
        ((3 : Int), (8 : Int), Ann.mk "d" "e" "f")]).length = 2 :=
  ⟨(C1_sweep_two_ranges 0 10 2 5 (Ann.mk "a" "b" "c") (Ann.mk "d" "e" "f")).1
      (by constructor <;> norm_num),
   ((C1_sweep_two_ranges 0 5 3 8 (Ann.mk "a" "b" "c") (Ann.mk "d" "e" "f")).2.2
      (by constructor <;> norm_num)
      (by simp [rangeContains])
      (by simp [rangeContains])).1⟩

/-! ## Content Locator, indexed strategy (`extract_highlights_kfxlib.py`)

`load_content_sections` (lines 35-48) sorts the type-1 content entries by
position and infers each section's length from the next section's position
(the last from its own content).  `extract_text` (lines 51-71) walks the
sorted sections and concatenates the overlapping slices. -/

structure ContentSection where
  position : Int
  length : Int
  content : String
deriving DecidableEq, Repr

/-- Python slice `s[a:b]` for non-negative indices (both ends clamp to the
string length, empty when `b ≤ a`). -/
def strSlice (s : String) (a b : Nat) : String :=
  String.mk ((s.data.drop a).take (b - a))

/-- Stable insertion sort of raw `(position, content)` entries by position
(`sections.sort(key=lambda x: x["position"])`). -/
def insertByPos (x : Int × String) : List (Int × String) → List (Int × String)
  | [] => [x]
  | y :: ys => if x.1 ≤ y.1 then x :: y :: ys else y :: insertByPos x ys

def sortByPos : List (Int × String) → List (Int × String)
  | [] => []
  | x :: xs => insertByPos x (sortByPos xs)

/-- Length inference of `load_content_sections`: every section's length is
the next section's position minus its own; the last section's length is the
length of its own content. -/
def inferLengths : List (Int × String) → List ContentSection
  | [] => []
  | [(p, c)] => [⟨p, (c.length : Int), c⟩]
  | (p, c) :: (q, d) :: rest => ⟨p, q - p, c⟩ :: inferLengths ((q, d) :: rest)

/-- `load_content_sections` after the external KFX decode: sort the raw
sections by position, then infer lengths. -/
def load_content_sections (l : List (Int × String)) : List ContentSection :=
  inferLengths (sortByPos l)

/-- The first `while` loop of `extract_text`: advance `idx` while there is
a next section and the next section's position is ≤ `start`. -/
def skipSections (start : Int) : List ContentSection → List ContentSection
  | s1 :: s2 :: rest =>
    if s2.position ≤ start then skipSections start (s2 :: rest)
    else s1 :: s2 :: rest
  | l => l

/-- The second `while` loop of `extract_text`: collect slices from sections
whose position is < `stop`; note the end-inclusive `slice_end =
min(end + 1, sec_end)` from the source. -/
def collectParts (start stop : Int) : List ContentSection → List String
  | [] => []
  | sec :: rest =>
    if sec.position < stop then
      let secStart := sec.position
      let secEnd := secStart + sec.length
      let sliceStart := max start secStart
      let sliceEnd := min (stop + 1) secEnd
      (if sliceStart < sliceEnd then
        [strSlice sec.content (sliceStart - secStart).toNat (sliceEnd - secStart).toNat]
      else []) ++ collectParts start stop rest
    else []

/-- `extract_text(sections, start, end)`: `"".join(parts).strip()`. -/
def extract_text (sections : List ContentSection) (start stop : Int) : String :=
  pyStrip (String.join (collectParts start stop (skipSections start sections)))

/-- The concrete sections of claim C2. -/
def c2Sections : List ContentSection :=
  load_content_sections [(0, "AB"), (2, "CD"), (4, "EF")]

/-- **C2, counterexample.** On the sections `[(0,"AB"), (2,"CD"),
(4,"EF")]` and query range `(1,5)` the indexed Content Locator does *not*
return `"BCDE"`. -/
theorem C2_extract_text_counterexample : extract_text c2Sections 1 5 ≠ "BCDE" := by
  decide

/-- **C2, amended.** On the sections `[(0,"AB"), (2,"CD"), (4,"EF")]` and
query range `(1,5)` the indexed Content Locator returns `"BCDEF"`: the
slice is end-inclusive (`slice_end = min(end + 1, sec_end)`), so position 5
(`'F'`) is included. -/
theorem C2_extract_text_amended : extract_text c2Sections 1 5 = "BCDEF" := by
  decide

/-! ## Book Registry: `filter_new_or_changed` (`extract_highlights.py`
lines 540-588)

Modification times are Python floats; they are modelled as exact rationals
(the differences the claim exercises, 1.5 and 2.5 against the tolerance
2.0, are exactly representable in binary floating point, so the rational
model agrees with the float semantics).  A `stat()` call that raises
`OSError` is modelled by `mtime = none`. -/

structure SyncFile where
  stem : String
  mtime : Option ℚ
deriving DecidableEq, Repr

structure SyncRecord where
  status : Option String
  kfx_mtime : Option ℚ
  yjr_mtime : Option ℚ
deriving DecidableEq, Repr

/-- `sync_state["books"].get(stem)`. -/
def lookupRecord (books : List (String × SyncRecord)) (stem : String) :
    Option SyncRecord :=
  (books.find? (fun p => p.1 = stem)).map (·.2)

/-- `filter_new_or_changed(pairs, sync_state, metadata_only)`: returns
`(filtered_pairs, skipped_count)`.  A previously successful book whose book
and annotation mtimes are each within the fixed 2-second tolerance of the
stored values is skipped; in `metadata_only` mode the same applies to
`metadata-only` records using only the annotation mtime. -/
def filter_new_or_changed (pairs : List (SyncFile × SyncFile))
    (books : List (String × SyncRecord)) (metadata_only : Bool) :
    List (SyncFile × SyncFile) × Nat :=
  match pairs with
  | [] => ([], 0)
  | (book, ann) :: rest =>
    let acc := filter_new_or_changed rest books metadata_only
    match lookupRecord books book.stem with
    | none => ((book, ann) :: acc.1, acc.2)
    | some record =>
      match ann.mtime with
      | none => ((book, ann) :: acc.1, acc.2)
      | some annM =>
        if record.status = some "success" then
          match book.mtime with
          | none => ((book, ann) :: acc.1, acc.2)
          | some bookM =>
            if |bookM - record.kfx_mtime.getD 0| < 2
                ∧ |annM - record.yjr_mtime.getD 0| < 2 then
              (acc.1, acc.2 + 1)
            else ((book, ann) :: acc.1, acc.2)
        else if metadata_only ∧ record.status = some "metadata-only" then
          if |annM - record.yjr_mtime.getD 0| < 2 then
            (acc.1, acc.2 + 1)
          else ((book, ann) :: acc.1, acc.2)
        else ((book, ann) :: acc.1, acc.2)

/-- **C8.** The unchanged-book check compares stored against current
modification times with a fixed 2-second tolerance: a previously
successful book whose book and annotation mtimes each differ from the
stored values by 1.5 seconds (either direction) is reported unchanged
(filtered out, skip count 1); with mtimes differing by 2.5 seconds it is
reported changed (kept for reprocessing, skip count 0). -/
theorem C8_mtime_tolerance (k y d1 d2 e1 e2 : ℚ) (stem s2 : String)
    (h1 : |d1| = 3/2) (h2 : |d2| = 3/2) (h3 : |e1| = 5/2) (h4 : |e2| = 5/2) :
    (filter_new_or_changed
        [(⟨stem, some (k + d1)⟩, ⟨s2, some (y + d2)⟩)]
        [(stem, ⟨some "success", some k, some y⟩)] false
      = ([], 1))
    ∧ (filter_new_or_changed
        [(⟨stem, some (k + e1)⟩, ⟨s2, some (y + e2)⟩)]
        [(stem, ⟨some "success", some k, some y⟩)] false
      = ([(⟨stem, some (k + e1)⟩, ⟨s2, some (y + e2)⟩)], 0)) := by
  constructor
  · simp [filter_new_or_changed, lookupRecord, List.find?]
    rw [h1, h2]
    norm_num
  · simp [filter_new_or_changed, lookupRecord, List.find?]
    rw [h3]
    norm_num

/-- Witness for C8 at concrete stored times 100 / 200. -/
theorem C8_mtime_tolerance_witness :
    (filter_new_or_changed
        [(⟨"b", some ((100 : ℚ) + 3/2)⟩, ⟨"a", some ((200 : ℚ) + 3/2)⟩)]
        [("b", ⟨some "success", some 100, some 200⟩)] false
      = ([], 1))
    ∧ (filter_new_or_changed
        [(⟨"b", some ((100 : ℚ) + 5/2)⟩, ⟨"a", some ((200 : ℚ) + 5/2)⟩)]
        [("b", ⟨some "success", some 100, some 200⟩)] false
      = ([(⟨"b", some ((100 : ℚ) + 5/2)⟩, ⟨"a", some ((200 : ℚ) + 5/2)⟩)], 0)) :=
  C8_mtime_tolerance 100 200 (3/2) (3/2) (5/2) (5/2) "b" "a"
    (abs_of_pos (by norm_num)) (abs_of_pos (by norm_num))
    (abs_of_pos (by norm_num)) (abs_of_pos (by norm_num))

/-! ## Flat-buffer Content Locator: `snap_to_tag_boundaries`

The identical function appears in `extract_highlights_azw3.py` (lines
132-164), `extract_highlights_mobi.py` (92-119) and
`extract_highlights_htmlz.py` (21-48):

```
i = start
while i > 0:
    i -= 1
    if all_html[i:i+1] == b'>': break
    if all_html[i:i+1] == b'<':
        gt = all_html.find(b'>', start)
        if gt != -1: start = gt + 1
        break
j = end
while j > 0:
    j -= 1
    if all_html[j:j+1] == b'>': break
    if all_html[j:j+1] == b'<':
        end = j
        break
return all_html[start:end]
```
-/

/-- The backward scan of `snap_to_tag_boundaries`: starting just below
index `n` and scanning down, the index of the first `'<'` encountered
before any `'>'`; `none` when a `'>'` is hit first or the scan exhausts
the buffer.  An out-of-range index is skipped, as Python's
`buf[i:i+1] == b'<'` is false on the empty slice. -/
def scanBackLt (buf : List Char) : Nat → Option Nat
  | 0 => none
  | j + 1 =>
    match buf.get? j with
    | some c =>
      if c = '>' then none
      else if c = '<' then some j
      else scanBackLt buf j
    | none => scanBackLt buf j

/-- Helper for `bytes.find`: first index holding `c` in `l`, reported with
offset `i`. -/
def findFrom (c : Char) : List Char → Nat → Option Nat
  | [], _ => none
  | x :: xs, i => if x = c then some i else findFrom c xs (i + 1)

/-- `all_html.find(c, start)`: the least index ≥ `start` holding `c`
(`none` models Python's `-1`). -/
def bytesFind (buf : List Char) (c : Char) (start : Nat) : Option Nat :=
  findFrom c (buf.drop start) start

/-- The adjusted start offset: when the backward scan from `start` finds a
`'<'` before any `'>'`, the start is inside a tag and is advanced past the
next `'>'` (if any). -/
def snapStart (buf : List Char) (start : Nat) : Nat :=
  match scanBackLt buf start with
  | some _ =>
    match bytesFind buf '>' start with
    | some gt => gt + 1
    | none => start
  | none => start

/-- The adjusted end offset: when the backward scan from `stop` finds a
`'<'` before any `'>'`, the end is pulled back to that `'<'`. -/
def snapStop (buf : List Char) (stop : Nat) : Nat :=
  match scanBackLt buf stop with
  | some j => j
  | none => stop

/-- `snap_to_tag_boundaries(all_html, start, end)`. -/
def snap_to_tag_boundaries (buf : List Char) (start stop : Nat) : List Char :=
  (buf.drop (snapStart buf start)).take (snapStop buf stop - snapStart buf start)

/-- The safety property claim C6 ascribes to the snapped slice: every
`'<'` inside the slice is followed by a `'>'` within the slice, and (when
the slice is nonempty) the slice does not begin inside a tag opened before
it — formalised by the source's own backward-scan criterion at the snapped
start. -/
def tagSafe (buf : List Char) (start stop : Nat) : Prop :=
  (∀ pre post, snap_to_tag_boundaries buf start stop = pre ++ '<' :: post →
    '>' ∈ post)
  ∧ (snap_to_tag_boundaries buf start stop ≠ [] →
    scanBackLt buf (snapStart buf start) = none)

/-- Well-formedness of the markup buffer: between any two `'<'` characters
there is an intervening `'>'` (no `'<'` opens inside another tag).  The
quantifiers are bounded by the buffer length so the predicate is decidable
on concrete buffers. -/
def noNestedLt (buf : List Char) : Prop :=
  ∀ q < buf.length, ∀ p < q, buf.get? p = some '<' → buf.get? q = some '<' →
    ∃ r < q, p < r ∧ buf.get? r = some '>'

instance (buf : List Char) : Decidable (noNestedLt buf) :=
  @Nat.decidableBallLT buf.length _ (fun _ _ => inferInstance)

/-- **C6, counterexample.** On the buffer `"a<b<c"` (a `'<'` nested before
another tag's `'<'`) with the in-range slice `(0, 5)`, the snapped slice is
`"a<b"`, which hands the tag-stripping step an unterminated `'<'`:
`tagSafe` fails. -/
theorem C6_snap_counterexample : ¬ tagSafe "a<b<c".data 0 5 := by
  intro h
  have h1 := h.1 ['a'] ['b'] (by decide)
  exact absurd h1 (by decide)

/-! ### Lemmas about the backward scan and `bytes.find` -/

/-- A successful backward scan found a `'<'` at `j`, with no tag character
between `j` and the scan origin. -/
theorem scanBackLt_eq_some {buf : List Char} {n j : Nat}
    (h : scanBackLt buf n = some j) :
    j < n ∧ buf.get? j = some '<' ∧
      ∀ r, j < r → r < n → buf.get? r ≠ some '<' ∧ buf.get? r ≠ some '>' := by
  induction n with
  | zero => simp [scanBackLt] at h
  | succ m ih =>
    rw [scanBackLt] at h
    cases hg : buf.get? m with
    | none =>
      simp only [hg] at h
      obtain ⟨h1, h2, h3⟩ := ih h
      refine ⟨Nat.lt_succ_of_lt h1, h2, ?_⟩
      intro r hr1 hr2
      rcases Nat.lt_succ_iff_lt_or_eq.mp hr2 with hlt | rfl
      · exact h3 r hr1 hlt
      · rw [hg]
        simp
    | some c =>
      simp only [hg] at h
      by_cases hgt : c = '>'
      · rw [if_pos hgt] at h
        exact absurd h (by simp)
      · rw [if_neg hgt] at h
        by_cases hlc : c = '<'
        · rw [if_pos hlc] at h
          obtain rfl : m = j := Option.some.inj h
          refine ⟨Nat.lt_succ_self m, by rw [hg, hlc], ?_⟩
          intro r hr1 hr2
          omega
        · rw [if_neg hlc] at h
          obtain ⟨h1, h2, h3⟩ := ih h
          refine ⟨Nat.lt_succ_of_lt h1, h2, ?_⟩
          intro r hr1 hr2
          rcases Nat.lt_succ_iff_lt_or_eq.mp hr2 with hlt | rfl
          · exact h3 r hr1 hlt
          · rw [hg]
            exact ⟨fun hc => hlc (Option.some.inj hc),
                   fun hc => hgt (Option.some.inj hc)⟩

/-- A failed backward scan means every `'<'` below the origin has a `'>'`
between it and the origin. -/
theorem scanBackLt_eq_none {buf : List Char} {n : Nat}
    (h : scanBackLt buf n = none) :
    ∀ j, j < n → buf.get? j = some '<' →
      ∃ r, j < r ∧ r < n ∧ buf.get? r = some '>' := by
  induction n with
  | zero =>
    intro j hj
    omega
  | succ m ih =>
    intro j hj hlt
    rw [scanBackLt] at h
    cases hg : buf.get? m with
    | none =>
      simp only [hg] at h
      rcases Nat.lt_succ_iff_lt_or_eq.mp hj with hj2 | rfl
      · obtain ⟨r, h1, h2, h3⟩ := ih h j hj2 hlt
        exact ⟨r, h1, Nat.lt_succ_of_lt h2, h3⟩
      · rw [hg] at hlt
        exact absurd hlt (by simp)
    | some c =>
      simp only [hg] at h
      by_cases hgt : c = '>'
      · rcases Nat.lt_succ_iff_lt_or_eq.mp hj with hj2 | rfl
        · exact ⟨m, hj2, Nat.lt_succ_self m, by rw [hg, hgt]⟩
        · rw [hg] at hlt
          have hcc := Option.some.inj hlt
          rw [hgt] at hcc
          exact absurd hcc (by decide)
      · rw [if_neg hgt] at h
        by_cases hlc : c = '<'
        · rw [if_pos hlc] at h
          exact absurd h (by simp)
        · rw [if_neg hlc] at h
          rcases Nat.lt_succ_iff_lt_or_eq.mp hj with hj2 | rfl
          · obtain ⟨r, h1, h2, h3⟩ := ih h j hj2 hlt
            exact ⟨r, h1, Nat.lt_succ_of_lt h2, h3⟩
          · rw [hg] at hlt
            exact absurd (Option.some.inj hlt) hlc

/-- Scanning back from just past a `'>'` finds nothing. -/
theorem scanBackLt_succ_gt {buf : List Char} {j : Nat}
    (h : buf.get? j = some '>') : scanBackLt buf (j + 1) = none := by
  rw [scanBackLt, h]
  simp

theorem findFrom_eq_some {c : Char} {l : List Char} {i g : Nat}
    (h : findFrom c l i = some g) : i ≤ g ∧ l.get? (g - i) = some c := by
  induction l generalizing i with
  | nil => simp [findFrom] at h
  | cons x xs ih =>
    rw [findFrom] at h
    by_cases hx : x = c
    · rw [if_pos hx] at h
      obtain rfl : i = g := Option.some.inj h
      exact ⟨le_refl _, by simp [hx]⟩
    · rw [if_neg hx] at h
      obtain ⟨h1, h2⟩ := ih h
      refine ⟨by omega, ?_⟩
      rw [show g - i = (g - (i + 1)) + 1 by omega]
      simpa using h2

theorem findFrom_eq_none {c : Char} {l : List Char} {i : Nat}
    (h : findFrom c l i = none) : ∀ m, l.get? m ≠ some c := by
  induction l generalizing i with
  | nil =>
    intro m
    simp
  | cons x xs ih =>
    rw [findFrom] at h
    by_cases hx : x = c
    · rw [if_pos hx] at h
      exact absurd h (by simp)
    · rw [if_neg hx] at h
      intro m
      cases m with
      | zero => simpa using hx
      | succ k => simpa using ih h k

theorem bytesFind_eq_some {buf : List Char} {c : Char} {start g : Nat}
    (h : bytesFind buf c start = some g) :
    start ≤ g ∧ buf.get? g = some c := by
  obtain ⟨h1, h2⟩ := findFrom_eq_some h
  refine ⟨h1, ?_⟩
  rw [List.get?_drop] at h2
  rwa [show start + (g - start) = g by omega] at h2

theorem bytesFind_eq_none {buf : List Char} {c : Char} {start : Nat}
    (h : bytesFind buf c start = none) :
    ∀ r, start ≤ r → buf.get? r ≠ some c := by
  intro r hr
  have h2 := findFrom_eq_none h (r - start)
  rw [List.get?_drop] at h2
  rwa [show start + (r - start) = r by omega] at h2

/-- **C6, amended.** For every content buffer *in which no `'<'` occurs
between another `'<'` and its closing `'>'* (`noNestedLt`), and every raw
slice `(start, stop)` with `start ≤ stop ≤ buffer length`, the slice
returned by `snap_to_tag_boundaries` contains no unterminated tag: every
`'<'` in the slice is followed by a `'>'` within the slice, and the slice
never begins inside a tag opened before it.  (Without the well-formedness
hypothesis the guarantee fails, see the counterexample.) -/
theorem C6_snap_tag_safety (buf : List Char) (start stop : Nat)
    (hnest : noNestedLt buf) (hss : start ≤ stop) (hlen : stop ≤ buf.length) :
    tagSafe buf start stop := by
  have hget : ∀ i, i < snapStop buf stop - snapStart buf start →
      (snap_to_tag_boundaries buf start stop).get? i
        = buf.get? (snapStart buf start + i) := by
    intro i hi
    rw [snap_to_tag_boundaries, List.get?_take hi, List.get?_drop]
  constructor
  · -- every '<' in the slice has a '>' after it within the slice
    intro pre post heq
    have hlen_sl : (snap_to_tag_boundaries buf start stop).length
        = pre.length + (post.length + 1) := by
      rw [heq]
      simp [List.length_append]
    have hmin : (snap_to_tag_boundaries buf start stop).length
        ≤ snapStop buf stop - snapStart buf start := by
      rw [snap_to_tag_boundaries, List.length_take]
      exact min_le_left _ _
    have hi : pre.length < snapStop buf stop - snapStart buf start := by omega
    have hsl_i : (snap_to_tag_boundaries buf start stop).get? pre.length
        = some '<' := by
      rw [heq, List.get?_append_right (le_refl _)]
      simp
    have hbuf_i : buf.get? (snapStart buf start + pre.length) = some '<' := by
      rw [← hget pre.length hi]
      exact hsl_i
    have hq_lt : snapStart buf start + pre.length < snapStop buf stop := by omega
    have hr : ∃ r, snapStart buf start + pre.length < r ∧ r < snapStop buf stop
        ∧ buf.get? r = some '>' := by
      cases hscan : scanBackLt buf stop with
      | some j =>
        obtain ⟨hj_lt, hj_chr, _⟩ := scanBackLt_eq_some hscan
        have hstop_eq : snapStop buf stop = j := by simp [snapStop, hscan]
        rw [hstop_eq] at hq_lt ⊢
        have hjlen : j < buf.length := by
          rcases List.get?_eq_some.mp hj_chr with ⟨hl, _⟩
          exact hl
        obtain ⟨r, hr1, hr2, hr3⟩ := hnest j hjlen _ hq_lt hbuf_i hj_chr
        exact ⟨r, hr2, hr1, hr3⟩
      | none =>
        have hstop_eq : snapStop buf stop = stop := by simp [snapStop, hscan]
        rw [hstop_eq] at hq_lt ⊢
        exact scanBackLt_eq_none hscan _ hq_lt hbuf_i
    obtain ⟨r, hr1, hr2, hr3⟩ := hr
    have hr_idx : r - snapStart buf start < snapStop buf stop - snapStart buf start := by
      omega
    have hsl_r : (snap_to_tag_boundaries buf start stop).get?
        (r - snapStart buf start) = some '>' := by
      rw [hget _ hr_idx,
        show snapStart buf start + (r - snapStart buf start) = r by omega]
      exact hr3
    rw [heq,
      List.get?_append_right (by omega : pre.length ≤ r - snapStart buf start)]
        at hsl_r
    cases hk : r - snapStart buf start - pre.length with
    | zero =>
      rw [hk] at hsl_r
      simp at hsl_r
    | succ k =>
      rw [hk] at hsl_r
      simp only [List.get?_cons_succ] at hsl_r
      exact List.get?_mem hsl_r
  · -- the slice never begins inside a tag opened before it
    intro hne
    have hlt : snapStart buf start < snapStop buf stop := by
      by_contra hge
      apply hne
      rw [snap_to_tag_boundaries,
        show snapStop buf stop - snapStart buf start = 0 by omega]
      simp
    cases hscan : scanBackLt buf start with
    | none =>
      rw [show snapStart buf start = start by simp [snapStart, hscan]]
      exact hscan
    | some p =>
      cases hfind : bytesFind buf '>' start with
      | some gt =>
        have hs_eq : snapStart buf start = gt + 1 := by
          simp [snapStart, hscan, hfind]
        obtain ⟨_, hgt⟩ := bytesFind_eq_some hfind
        rw [hs_eq]
        exact scanBackLt_succ_gt hgt
      | none =>
        exfalso
        have hs_eq : snapStart buf start = start := by
          simp [snapStart, hscan, hfind]
        obtain ⟨hp_lt, hp_chr, hp_clean⟩ := scanBackLt_eq_some hscan
        have hno_gt := bytesFind_eq_none hfind
        cases hscan2 : scanBackLt buf stop with
        | none =>
          have hp_lt_stop : p < stop := by omega
          obtain ⟨r, hr1, hr2, hr3⟩ := scanBackLt_eq_none hscan2 p hp_lt_stop hp_chr
          by_cases hrs : r < start
          · exact (hp_clean r hr1 hrs).2 hr3
          · exact hno_gt r (by omega) hr3
        | some j =>
          have hstop_eq : snapStop buf stop = j := by simp [snapStop, hscan2]
          obtain ⟨hj_lt, hj_chr, _⟩ := scanBackLt_eq_some hscan2
          have hjlen : j < buf.length := by
            rcases List.get?_eq_some.mp hj_chr with ⟨hl, _⟩
            exact hl
          have hp_lt_j : p < j := by
            rw [hs_eq] at hlt
            rw [hstop_eq] at hlt
            omega
          obtain ⟨r, hr1, hr2, hr3⟩ := hnest j hjlen p hp_lt_j hp_chr hj_chr
          by_cases hrs : r < start
          · exact (hp_clean r hr2 hrs).2 hr3
          · exact hno_gt r (by omega) hr3

/-- Witness for the amended C6 on a concrete well-formed buffer: the raw
slice `(3, 8)` of `"ab<i>c</i>d"` lands mid-tag and the snapped slice is
tag-safe. -/
theorem C6_snap_tag_safety_witness : tagSafe "ab<i>c</i>d".data 3 8 :=
  C6_snap_tag_safety "ab<i>c</i>d".data 3 8 (by decide) (by decide) (by decide)

/-! ## Flat-buffer Content Locator: `strip_html_tags`

The identical function appears in `extract_highlights_azw3.py` (lines
167-209), `extract_highlights_mobi.py` (122-152) and
`extract_highlights_htmlz.py` (51-85).  The UTF-8 decode step is the
identity in this model (buffers are already character lists); the regex
substitutions are modelled by explicit left-to-right scanners with the
same leftmost, non-overlapping match semantics; `html.unescape` is
modelled for a subset of entities (it is the identity on strings without
`'&'`, which is all the claims exercise). -/

/-- `str.find(c)`: first index of `c`, `none` for Python's `-1`. -/
def pyFindChar (l : List Char) (c : Char) : Option Nat :=
  l.findIdx? (· = c)

/-- `str.rfind(c)`: last index of `c`, `none` for Python's `-1`. -/
def pyRFindChar (l : List Char) (c : Char) : Option Nat :=
  match l.reverse.findIdx? (· = c) with
  | some k => some (l.length - 1 - k)
  | none => none

/-- First boundary cleanup of `strip_html_tags`: if the text does not start
with `'<'` but its first `'>'` precedes its first `'<'` (or there is no
`'<'`), everything up to that `'>'` is partial-tag debris and is dropped. -/
def cleanPartialStart (t : List Char) : List Char :=
  if t.head? = some '<' then t
  else
    match pyFindChar t '>' with
    | some gt =>
      match pyFindChar t '<' with
      | none => t.drop (gt + 1)
      | some lt => if gt < lt then t.drop (gt + 1) else t
    | none => t

/-- Second boundary cleanup: when the last `'<'` has no `'>'` after it,
the unclosed tag at the end is removed. -/
def cleanPartialEnd (t : List Char) : List Char :=
  match pyRFindChar t '<' with
  | none => t
  | some lt =>
    match pyRFindChar t '>' with
    | none => t.take lt
    | some gt => if gt < lt then t.take lt else t

/-- The optional `/` of the `<br\s*/?\s*>` pattern. -/
def brSlash : List Char → List Char
  | '/' :: r => r
  | l => l

/-- Tail of the `<br\s*/?\s*>` pattern after the letters `br`: greedy
whitespace, optional `/`, whitespace, then `'>'`. -/
def brTail (l : List Char) : Option (List Char) :=
  match (brSlash (l.dropWhile pyIsSpace)).dropWhile pyIsSpace with
  | '>' :: r => some r
  | _ => none

/-- Match of `<br\s*/?\s*>` (case-insensitive) at the head of the list;
returns the remainder after the match. -/
def brMatch : List Char → Option (List Char)
  | '<' :: b :: r :: rest =>
    if (b = 'b' ∨ b = 'B') ∧ (r = 'r' ∨ r = 'R') then brTail rest else none
  | _ => none

/-! The scanners below consume at least one character per step, so running
them with fuel equal to the input length is exhaustive; the fuel makes the
recursion structural (hence kernel-computable).  The fuel-exhausted arms
are unreachable for fuel ≥ input length. -/

/-- `re.sub(r'<br\s*/?\s*>', '\n', text, flags=re.IGNORECASE)` as a
left-to-right scanner. -/
def subBrAux : Nat → List Char → List Char
  | _, [] => []
  | 0, l => l
  | fuel + 1, c :: rest =>
    match brMatch (c :: rest) with
    | some rem => '\n' :: subBrAux fuel rem
    | none => c :: subBrAux fuel rest

def subBr (l : List Char) : List Char := subBrAux l.length l

/-- The closing block-level tags replaced by newlines:
`</(p|div|h[1-6]|li|tr|blockquote)>`. -/
def blockTags : List (List Char) :=
  [['p'], ['d', 'i', 'v'], ['h', '1'], ['h', '2'], ['h', '3'], ['h', '4'],
   ['h', '5'], ['h', '6'], ['l', 'i'], ['t', 'r'],
   ['b', 'l', 'o', 'c', 'k', 'q', 'u', 'o', 't', 'e']]

/-- Case-insensitive pattern removal: if lowercasing `l`'s prefix gives
`pat`, return the remainder. -/
def dropCI : List Char → List Char → Option (List Char)
  | [], l => some l
  | _ :: _, [] => none
  | p :: ps, c :: cs => if c.toLower = p then dropCI ps cs else none

/-- Match of `</tag>` for a block-level `tag` (case-insensitive) at the
head of the list; returns the remainder after the match. -/
def blockMatch : List Char → Option (List Char)
  | '<' :: '/' :: rest =>
    (blockTags.filterMap (fun tag => dropCI (tag ++ ['>']) rest)).head?
  | _ => none

/-- `re.sub(r'</(p|div|h[1-6]|li|tr|blockquote)>', '\n', text,
flags=re.IGNORECASE)` as a left-to-right scanner. -/
def subBlockAux : Nat → List Char → List Char
  | _, [] => []
  | 0, l => l
  | fuel + 1, c :: rest =>
    match blockMatch (c :: rest) with
    | some rem => '\n' :: subBlockAux fuel rem
    | none => c :: subBlockAux fuel rest

def subBlock (l : List Char) : List Char := subBlockAux l.length l

/-- `re.sub(r'<[^>]+>', '', text)`: at each `'<'`, the greedy run of ≥ 1
non-`'>'` characters followed by `'>'` is removed; `"<>"` and an
unterminated `'<'` do not match and the scan advances one character. -/
def removeTagsAux : Nat → List Char → List Char
  | _, [] => []
  | 0, l => l
  | fuel + 1, '<' :: rest =>
    match pyFindChar rest '>' with
    | some 0 => '<' :: removeTagsAux fuel rest
    | some (k + 1) => removeTagsAux fuel (rest.drop (k + 2))
    | none => '<' :: removeTagsAux fuel rest
  | fuel + 1, c :: rest => c :: removeTagsAux fuel rest

def removeTags (l : List Char) : List Char := removeTagsAux l.length l

/-- The subset of `html.unescape`'s entity table that this model handles;
`html.unescape` is the identity on strings without `'&'`. -/
def entityTable : List (List Char × Char) :=
  [(['a', 'm', 'p', ';'], '&'), (['l', 't', ';'], '<'), (['g', 't', ';'], '>'),
   (['q', 'u', 'o', 't', ';'], '"'), (['a', 'p', 'o', 's', ';'], Char.ofNat 39),
   (['#', '3', '9', ';'], Char.ofNat 39), (['n', 'b', 's', 'p', ';'], Char.ofNat 160)]

/-- Exact (case-sensitive) pattern removal. -/
def dropExact : List Char → List Char → Option (List Char)
  | [], l => some l
  | _ :: _, [] => none
  | p :: ps, c :: cs => if c = p then dropExact ps cs else none

/-- Entity lookup at a position just after `'&'`. -/
def matchEntity (l : List Char) : Option (Char × List Char) :=
  (entityTable.filterMap (fun pc =>
    (dropExact pc.1 l).map (fun rem => (pc.2, rem)))).head?

/-- `html.unescape` (modelled subset) as a left-to-right scanner. -/
def unescapeCharsAux : Nat → List Char → List Char
  | _, [] => []
  | 0, l => l
  | fuel + 1, '&' :: rest =>
    match matchEntity rest with
    | some (c, rem) => c :: unescapeCharsAux fuel rem
    | none => '&' :: unescapeCharsAux fuel rest
  | fuel + 1, c :: rest => c :: unescapeCharsAux fuel rest

def unescapeChars (l : List Char) : List Char := unescapeCharsAux l.length l

/-- `str.split()` (no argument): split on whitespace runs, dropping empty
pieces. -/
def splitWsAux : Nat → List Char → List (List Char)
  | _, [] => []
  | 0, _ => []
  | fuel + 1, c :: rest =>
    if pyIsSpace c then splitWsAux fuel rest
    else ((c :: rest).takeWhile (fun x => ¬ pyIsSpace x))
      :: splitWsAux fuel ((c :: rest).dropWhile (fun x => ¬ pyIsSpace x))

def splitWs (l : List Char) : List (List Char) := splitWsAux l.length l

/-- `sep.join(pieces)`. -/
def joinSep (sep : Char) : List (List Char) → List Char
  | [] => []
  | [x] => x
  | x :: xs => x ++ sep :: joinSep sep xs

/-- `strip_html_tags(html_bytes)`: boundary cleanup of partial tags,
`<br>` and closing block-level tags to newlines, removal of remaining
complete tags, entity unescaping, whitespace normalisation per line
dropping empty lines, and a final strip. -/
def strip_html_tags (html : List Char) : String :=
  let t1 := cleanPartialStart html
  let t2 := cleanPartialEnd t1
  let t3 := subBr t2
  let t4 := subBlock t3
  let t5 := removeTags t4
  let t6 := unescapeChars t5
  let lines := (t6.splitOn '\n').map (fun ln => joinSep ' ' (splitWs ln))
  let t7 := joinSep '\n' (lines.filter (fun ln => ¬ ln.isEmpty))
  String.mk (pyStripList t7)

/-- **C5, counterexample.** Given the buffer `"xx<b>HELLO</b>yy"` and the
raw slice `(3, 14)`, the snapped slice is *not* `"<b>HELLO</b>"`: the
source advances a mid-tag start forward past the tag's `'>'`, it does not
extend it backward over the tag. -/
theorem C5_snap_counterexample :
    snap_to_tag_boundaries "xx<b>HELLO</b>yy".data 3 14 ≠ "<b>HELLO</b>".data := by
  decide

/-- **C5, amended.** Given the buffer `"xx<b>HELLO</b>yy"` and the raw
slice `(3, 14)`, snapping excludes the partial `"<b"` fragment by advancing
the start past the tag's closing `'>'` (the end, which lands just after
`"</b>"`, is unchanged), yielding exactly `"HELLO</b>"`; tag stripping of
that snapped slice then yields exactly `"HELLO"`. -/
theorem C5_snap_strip_amended :
    snap_to_tag_boundaries "xx<b>HELLO</b>yy".data 3 14 = "HELLO</b>".data
    ∧ strip_html_tags (snap_to_tag_boundaries "xx<b>HELLO</b>yy".data 3 14)
      = "HELLO" := by
  constructor
  · decide
  · decide

/-! ## Position Codec: the per-format position parsers -/

/-- Python `s.split(sep)` for a one-character separator: split at every
occurrence, keeping empty fields. -/
def pySplitSepAux (sep : Char) : List Char → List Char → List (List Char)
  | [], acc => [acc.reverse]
  | c :: rest, acc =>
    if c = sep then acc.reverse :: pySplitSepAux sep rest []
    else pySplitSepAux sep rest (c :: acc)

def pySplitSep (sep : Char) (l : List Char) : List (List Char) :=
  pySplitSepAux sep l []

/-- Python `int(...)` on a list of characters: surrounding whitespace is
ignored, an optional sign precedes a nonempty run of decimal digits;
anything else raises `ValueError`, modelled as `none`.  (Underscore digit
separators, which `int` also accepts, are not modelled; no claim
exercises them.) -/
def pyIntList? (l : List Char) : Option Int :=
  match pyStripList l with
  | '-' :: rest => (digitsVal rest).map (fun n => -(n : Int))
  | '+' :: rest => (digitsVal rest).map (fun n => (n : Int))
  | l2 => (digitsVal l2).map (fun n => (n : Int))

/-- KFX (`extract_highlights_kfxlib.py`): `int(pos.split(":")[1])` — the
integer after the colon; `IndexError`/`ValueError` (no colon, or a
non-integer field) is modelled as `none`. -/
def kfx_parse_position (s : String) : Option Int :=
  ((pySplitSep ':' s.data).get? 1).bind pyIntList?

/-- AZW3 and HTMLZ (`extract_highlights_azw3.py` lines 280-284,
`extract_highlights_htmlz.py` lines 204-208): the field after the colon if
there is one, else the whole string. -/
def azw3_parse_position (s : String) : Option Int :=
  if s.data.contains ':' then ((pySplitSep ':' s.data).get? 1).bind pyIntList?
  else pyIntList? s.data

/-- MOBI6 (`extract_highlights_mobi.py` lines 181-192): the *first* field
of `"start:spine:length:blob"`, else the whole string. -/
def mobi_parse_position (s : String) : Option Int :=
  if s.data.contains ':' then ((pySplitSep ':' s.data).get? 0).bind pyIntList?
  else pyIntList? s.data

/-! ## HighlightItem and the emission loops -/

/-- One exported item (the dict appended to `items`/`highlights` by the
extractors).  The Python dict key `"section"` is a Lean keyword and is
called `sectionLabel` here. -/
structure HighlightItem where
  creationTime : String
  text : String
  page : Option String
  location : Int
  sectionLabel : Option String
  chapter : Option String
  type : String
deriving DecidableEq, Repr

/-- `page_for_offset(pages, offset)` (also `page_for_pid` in the KFX
script): the label of the last entry with offset ≤ the query, scanning in
order and stopping at the first larger entry. -/
def page_for_offset_aux (label : Option String) :
    List (Int × String) → Int → Option String
  | [], _ => label
  | (po, pl) :: rest, off =>
    if po ≤ off then page_for_offset_aux (some pl) rest off else label

def page_for_offset (pages : List (Int × String)) (off : Int) : Option String :=
  page_for_offset_aux none pages off

/-- `notes_by_end.setdefault(pos, []).append(note)`: append to an existing
key's list, else add the key. -/
def nbeInsert : List (Int × List String) → Int → String → List (Int × List String)
  | [], k, v => [(k, [v])]
  | (k2, vs) :: rest, k, v =>
    if k2 = k then (k2, vs ++ [v]) :: rest else (k2, vs) :: nbeInsert rest k v

/-- `notes_by_end.get(k, [])`. -/
def nbeLookup : List (Int × List String) → Int → List String
  | [], _ => []
  | (k2, vs) :: rest, k => if k2 = k then vs else nbeLookup rest k

/-- The notes-index loop, generic in the key selector: AZW3/MOBI/HTMLZ
key notes by `parse_position(n["endPosition"])`, the KFX script by
`int(n["startPosition"].split(":")[1])`.  A parse failure aborts the book
(`none`). -/
def build_notes_map (key : Note → Option Int) :
    List Note → List (Int × List String) → Option (List (Int × List String))
  | [], m => some m
  | n :: rest, m =>
    match key n with
    | some p => build_notes_map key rest (nbeInsert m p n.note)
    | none => none

/-- AZW3 `notes_by_end` (lines 287-290): keyed by the note's **end**
position. -/
def azw3_notes_by_end (notes : List Note) : Option (List (Int × List String)) :=
  build_notes_map (fun n => azw3_parse_position n.endPosition) notes []

/-- KFX `notes_by_end` (lines 403-406): keyed by the note's **start**
position (`int(n["startPosition"].split(":")[1])`). -/
def kfx_notes_by_end (notes : List Note) : Option (List (Int × List String)) :=
  build_notes_map (fun n => kfx_parse_position n.startPosition) notes []

/-- Effectful map over `Option` (the loop `for ann in annotations` with a
possible exception at each element): `none` as soon as any element fails. -/
def mapOption {α β : Type} (f : α → Option β) : List α → Option (List β)
  | [] => some []
  | x :: xs => do
    let b ← f x
    let bs ← mapOption f xs
    pure (b :: bs)

/-- The highlight dict built by the AZW3 emission loop. -/
def azw3HighlightItem (ann : Ann) (text : String) (page : Option String)
    (loc : Int) : HighlightItem :=
  ⟨ann.creationTime, text, page, loc, none, none, "highlight"⟩

/-- The note dict built by the AZW3 emission loop. -/
def azw3NoteItem (noteText : String) (page : Option String) (loc : Int) :
    HighlightItem :=
  ⟨"", noteText, page, loc, none, none, "note"⟩

/-- The AZW3 emission loop (`extract_highlights_azw3.py` lines 309-342):
snap and strip each deduplicated range, *drop the item if the stripped
text is empty*, otherwise emit the highlight followed by every note whose
indexed offset equals this highlight's end offset.  (The MOBI and HTMLZ
loops are identical up to the HTMLZ out-of-range check.) -/
def azw3_emit (allHtml : List Char) (pages : List (Int × String))
    (nbe : List (Int × List String)) :
    List (Int × Int × Ann) → List HighlightItem
  | [] => []
  | (s, e, ann) :: rest =>
    let text := strip_html_tags (snap_to_tag_boundaries allHtml s.toNat e.toNat)
    if text = "" then azw3_emit allHtml pages nbe rest
    else
      let page := if pages.isEmpty then none else page_for_offset pages s
      azw3HighlightItem ann text page s
        :: (nbeLookup nbe e).map (fun nt => azw3NoteItem nt page s)
        ++ azw3_emit allHtml pages nbe rest

/-- The full AZW3 per-book pipeline from raw annotation records: index the
notes by end offset, parse every highlight's range (a failure aborts the
book), sort + deduplicate, then emit. -/
def azw3_parse_range (a : Ann) : Option (Int × Int × Ann) := do
  let s ← azw3_parse_position a.startPosition
  let e ← azw3_parse_position a.endPosition
  pure (s, e, a)

def azw3_process (allHtml : List Char) (pages : List (Int × String))
    (anns : List Ann) (notes : List Note) : Option (List HighlightItem) := do
  let nbe ← azw3_notes_by_end notes
  let trips ← mapOption azw3_parse_range anns
  pure (azw3_emit allHtml pages nbe (dedupAnnotations trips))

/-! ### KFX navigation and emission -/

structure TocChapter where
  label : String
  pid : Int
deriving DecidableEq, Repr

structure TocSection where
  label : String
  pid : Int
  children : List TocChapter
deriving DecidableEq, Repr

/-- `page_for_pid` of the KFX script: same scan as `page_for_offset`. -/
def page_for_pid (pages : List (Int × String)) (pid : Int) : Option String :=
  page_for_offset_aux none pages pid

def find_chapter_aux (acc : Option String) :
    List TocChapter → Int → Option String
  | [], _ => acc
  | ch :: rest, pid =>
    if ch.pid ≤ pid then find_chapter_aux (some ch.label) rest pid else acc

def find_section_aux (acc : Option TocSection) :
    List TocSection → Int → Option TocSection
  | [], _ => acc
  | sec :: rest, pid =>
    if sec.pid ≤ pid then find_section_aux (some sec) rest pid else acc

/-- `find_section(pid)` (KFX script, lines 385-400): last section with
`pid ≤` query, then last chapter of that section with `pid ≤` query. -/
def find_section (toc : List TocSection) (pid : Int) :
    Option String × Option String :=
  match find_section_aux none toc pid with
  | none => (none, none)
  | some sec => (some sec.label, find_chapter_aux none sec.children pid)

/-- The KFX emission loop (`extract_highlights_kfxlib.py` lines 436-462):
extract text for each deduplicated range and append the highlight —
**without any empty-text check** — followed by every note whose indexed
offset equals this highlight's end offset. -/
def kfx_emit (sections : List ContentSection) (pages : List (Int × String))
    (toc : List TocSection) (nbe : List (Int × List String)) :
    List (Int × Int × Ann) → List HighlightItem
  | [] => []
  | (s, e, ann) :: rest =>
    let text := extract_text sections s e
    let page := page_for_pid pages s
    let sc := find_section toc s
    ⟨ann.creationTime, text, page, s, sc.1, sc.2, "highlight"⟩
      :: (nbeLookup nbe e).map (fun nt => ⟨"", nt, page, s, sc.1, sc.2, "note"⟩)
      ++ kfx_emit sections pages toc nbe rest

/-- The full KFX per-book pipeline (`main`, lines 402-462): index the notes
(by parsed start position), parse every highlight's range (a failure
raises and aborts the book), sort + deduplicate, then emit. -/
def kfx_parse_range (a : Ann) : Option (Int × Int × Ann) := do
  let s ← kfx_parse_position a.startPosition
  let e ← kfx_parse_position a.endPosition
  pure (s, e, a)

def kfx_process (sections : List ContentSection) (pages : List (Int × String))
    (toc : List TocSection) (anns : List Ann) (notes : List Note) :
    Option (List HighlightItem) := do
  let nbe ← kfx_notes_by_end notes
  let trips ← mapOption kfx_parse_range anns
  pure (kfx_emit sections pages toc nbe (dedupAnnotations trips))

/-- One book's inputs for the KFX batch loop. -/
structure KfxBook where
  sections : List ContentSection
  pages : List (Int × String)
  toc : List TocSection
  anns : List Ann
  notes : List Note

/-- The per-book loop of `_run_extraction` (`extract_highlights.py` lines
654-685): each book is processed inside a `try`/`except`; a failure marks
that book `failed` and the loop continues with the remaining books. -/
def run_extraction (books : List KfxBook) : List String :=
  books.map (fun b =>
    match kfx_process b.sections b.pages b.toc b.anns b.notes with
    | some _ => "success"
    | none => "failed")

/-! ### Claim theorems C7, C4, C3 -/

/-- Demo sections for the KFX concrete runs: one section `"ABCDEFGHIJ"` at
position 0. -/
def c4Sections : List ContentSection := load_content_sections [(0, "ABCDEFGHIJ")]

/-- **C7, counterexample.** The KFX emission loop has no empty-text check:
with no content sections, the extracted text is empty and the item is
still emitted as an empty `"highlight"` item. -/
theorem C7_empty_text_counterexample :
    kfx_emit [] [] [] [] [(0, 5, Ann.mk "p:0" "p:5" "t")]
      = [⟨"t", "", none, 0, none, none, "highlight"⟩] := by
  decide

/-- **C7, amended.** In the AZW3 pipeline (and the identical MOBI/HTMLZ
loops), every extracted item whose text is empty after tag stripping,
entity unescaping, whitespace normalisation and trimming is discarded
entirely: every emitted item of type `"highlight"` has nonempty text.  The
KFX pipeline has no such check and emits highlight items even when the
extracted text is empty (see the counterexample). -/
theorem C7_azw3_no_empty_highlights (allHtml : List Char)
    (pages : List (Int × String)) (nbe : List (Int × List String))
    (deduped : List (Int × Int × Ann)) (it : HighlightItem)
    (hmem : it ∈ azw3_emit allHtml pages nbe deduped)
    (htype : it.type = "highlight") : it.text ≠ "" := by
  induction deduped with
  | nil => simp [azw3_emit] at hmem
  | cons t rest ih =>
    obtain ⟨s, e, ann⟩ := t
    by_cases hempty :
        strip_html_tags (snap_to_tag_boundaries allHtml s.toNat e.toNat) = ""
    · rw [show azw3_emit allHtml pages nbe ((s, e, ann) :: rest)
          = azw3_emit allHtml pages nbe rest by
        simp [azw3_emit, hempty]] at hmem
      exact ih hmem
    · rw [show azw3_emit allHtml pages nbe ((s, e, ann) :: rest)
          = azw3HighlightItem ann
              (strip_html_tags (snap_to_tag_boundaries allHtml s.toNat e.toNat))
              (if pages.isEmpty then none else page_for_offset pages s) s
            :: (nbeLookup nbe e).map (fun nt => azw3NoteItem nt
              (if pages.isEmpty then none else page_for_offset pages s) s)
            ++ azw3_emit allHtml pages nbe rest by
        simp [azw3_emit, hempty]] at hmem
      rcases List.mem_cons.mp hmem with rfl | hmem2
      · exact hempty
      · rcases List.mem_append.mp hmem2 with hmap | hrec
        · obtain ⟨nt, _, rfl⟩ := List.mem_map.mp hmap
          simp [azw3NoteItem] at htype
        · exact ih hrec

/-- Witness for the amended C7: the concrete AZW3 run over the buffer
`"HELLO"` with one highlight `(0, 5)` emits that highlight, whose text is
nonempty. -/
theorem C7_azw3_no_empty_highlights_witness :
    (azw3HighlightItem (Ann.mk "0" "5" "t") "HELLO" none 0).text ≠ "" :=
  C7_azw3_no_empty_highlights "HELLO".data [] [] [(0, 5, Ann.mk "0" "5" "t")]
    (azw3HighlightItem (Ann.mk "0" "5" "t") "HELLO" none 0)
    (by decide) (by decide)

theorem nbeLookup_insert (m : List (Int × List String)) (k k2 : Int) (v : String) :
    nbeLookup (nbeInsert m k v) k2
      = if k2 = k then nbeLookup m k2 ++ [v] else nbeLookup m k2 := by
  induction m with
  | nil =>
    by_cases h : k2 = k
    · subst h
      simp [nbeInsert, nbeLookup]
    · have h2 : ¬ (k = k2) := fun hh => h hh.symm
      simp [nbeInsert, nbeLookup, h, h2]
  | cons p rest ih =>
    obtain ⟨k3, vs⟩ := p
    by_cases h3 : k3 = k
    · subst h3
      by_cases h : k2 = k3
      · subst h
        simp [nbeInsert, nbeLookup]
      · have h2 : ¬ (k3 = k2) := fun hh => h hh.symm
        simp [nbeInsert, nbeLookup, h, h2]
    · by_cases h4 : k3 = k2
      · have h5 : ¬ (k2 = k) := fun hh => h3 (h4.trans hh)
        simp [nbeInsert, nbeLookup, h3, h4, h5]
      · simp [nbeInsert, nbeLookup, h3, h4, ih]

theorem build_notes_map_lookup (key : Note → Option Int) (notes : List Note) :
    ∀ m m', build_notes_map key notes m = some m' →
      ∀ k, nbeLookup m' k
        = nbeLookup m k ++ (notes.filter (fun n => key n = some k)).map Note.note := by
  induction notes with
  | nil =>
    intro m m' h k
    rw [build_notes_map] at h
    obtain rfl := Option.some.inj h
    simp
  | cons n rest ih =>
    intro m m' h k
    rw [build_notes_map] at h
    cases hk : key n with
    | none =>
      rw [hk] at h
      exact absurd h (by simp)
    | some p =>
      rw [hk] at h
      have hrec := ih _ _ h k
      rw [hrec, nbeLookup_insert]
      by_cases hp : k = p
      · subst hp
        rw [if_pos rfl]
        have hfil : (key n = some k) := hk
        simp [List.filter_cons, hfil, List.append_assoc]
      · rw [if_neg hp]
        have hfil : ¬ (key n = some k) := by
          rw [hk]
          intro hh
          exact hp (Option.some.inj hh).symm
        simp [List.filter_cons, hfil]

/-- Specification-side description of the note-attachment step (spec
§4.3 step 4): each surviving highlight whose stripped text is nonempty is
emitted as one block — the highlight item immediately followed by every
note indexed at its end offset — and dropped blocks contribute nothing. -/
def azw3_block_spec (allHtml : List Char) (pages : List (Int × String))
    (nbe : List (Int × List String)) (t : Int × Int × Ann) :
    List HighlightItem :=
  let text := strip_html_tags (snap_to_tag_boundaries allHtml t.1.toNat t.2.1.toNat)
  if text = "" then []
  else
    let page := if pages.isEmpty then none else page_for_offset pages t.1
    azw3HighlightItem t.2.2 text page t.1
      :: (nbeLookup nbe t.2.1).map (fun nt => azw3NoteItem nt page t.1)

/-- **C4, amended.** In the AZW3/MOBI/HTMLZ pipelines standalone notes are
indexed by their end offset (the KFX pipeline instead indexes them by
their *start* offset, see the counterexample); the emitted item list is
exactly the concatenation of per-highlight blocks, each a surviving
nonempty highlight immediately followed by every note whose indexed
offset equals that highlight's end offset, before the next highlight; and
every emitted note item's text comes from the notes indexed at the end
offset of some surviving, nonempty highlight — notes matching no such
highlight are not emitted at all. -/
theorem C4_note_attachment (allHtml : List Char) (pages : List (Int × String))
    (notes : List Note) (nbe : List (Int × List String))
    (deduped : List (Int × Int × Ann))
    (hn : azw3_notes_by_end notes = some nbe) :
    (∀ k, nbeLookup nbe k
      = (notes.filter (fun n => azw3_parse_position n.endPosition = some k)).map
          Note.note)
    ∧ azw3_emit allHtml pages nbe deduped
      = deduped.flatMap (azw3_block_spec allHtml pages nbe)
    ∧ (∀ it ∈ azw3_emit allHtml pages nbe deduped, it.type = "note" →
        ∃ t ∈ deduped,
          strip_html_tags (snap_to_tag_boundaries allHtml t.1.toNat t.2.1.toNat) ≠ ""
          ∧ it.text ∈ nbeLookup nbe t.2.1) := by
  refine ⟨?_, ?_, ?_⟩
  · intro k
    have := build_notes_map_lookup (fun n => azw3_parse_position n.endPosition)
      notes [] nbe hn k
    simpa [nbeLookup] using this
  · induction deduped with
    | nil => simp [azw3_emit]
    | cons t rest ih =>
      obtain ⟨s, e, ann⟩ := t
      by_cases hempty :
          strip_html_tags (snap_to_tag_boundaries allHtml s.toNat e.toNat) = ""
      · simp [azw3_emit, azw3_block_spec, hempty, ih]
      · simp [azw3_emit, azw3_block_spec, hempty, ih]
  · induction deduped with
    | nil =>
      intro it hmem
      simp [azw3_emit] at hmem
    | cons t rest ih =>
      intro it hmem htype
      obtain ⟨s, e, ann⟩ := t
      by_cases hempty :
          strip_html_tags (snap_to_tag_boundaries allHtml s.toNat e.toNat) = ""
      · rw [show azw3_emit allHtml pages nbe ((s, e, ann) :: rest)
            = azw3_emit allHtml pages nbe rest by
          simp [azw3_emit, hempty]] at hmem
        obtain ⟨t2, ht2, hprop⟩ := ih it hmem htype
        exact ⟨t2, List.mem_cons_of_mem _ ht2, hprop⟩
      · rw [show azw3_emit allHtml pages nbe ((s, e, ann) :: rest)
            = azw3HighlightItem ann
                (strip_html_tags (snap_to_tag_boundaries allHtml s.toNat e.toNat))
                (if pages.isEmpty then none else page_for_offset pages s) s
              :: (nbeLookup nbe e).map (fun nt => azw3NoteItem nt
                (if pages.isEmpty then none else page_for_offset pages s) s)
              ++ azw3_emit allHtml pages nbe rest by
          simp [azw3_emit, hempty]] at hmem
        rcases List.mem_cons.mp hmem with rfl | hmem2
        · simp [azw3HighlightItem] at htype
        · rcases List.mem_append.mp hmem2 with hmap | hrec
          · obtain ⟨nt, hnt, rfl⟩ := List.mem_map.mp hmap
            exact ⟨(s, e, ann), List.mem_cons_self _ _, hempty, hnt⟩
          · obtain ⟨t2, ht2, hprop⟩ := ih it hrec htype
            exact ⟨t2, List.mem_cons_of_mem _ ht2, hprop⟩

/-- Witness for the amended C4 at a concrete input: one note anchored at
end offset 5 is indexed under key 5, and the emission over the buffer
`"HELLO"` with one highlight `(0, 5)` is exactly one block — the highlight
immediately followed by that note. -/
theorem C4_note_attachment_witness :
    nbeLookup [((5 : Int), ["n1"])] 5
      = (([Note.mk "0" "5" "n1"]).filter
          (fun n => azw3_parse_position n.endPosition = some 5)).map Note.note
    ∧ azw3_emit "HELLO".data [] [((5 : Int), ["n1"])] [(0, 5, Ann.mk "0" "5" "t")]
      = [(0, 5, Ann.mk "0" "5" "t")].flatMap
          (azw3_block_spec "HELLO".data [] [((5 : Int), ["n1"])]) :=
  ⟨(C4_note_attachment "HELLO".data [] [Note.mk "0" "5" "n1"] [((5 : Int), ["n1"])]
      [(0, 5, Ann.mk "0" "5" "t")] (by decide)).1 5,
   (C4_note_attachment "HELLO".data [] [Note.mk "0" "5" "n1"] [((5 : Int), ["n1"])]
      [(0, 5, Ann.mk "0" "5" "t")] (by decide)).2.1⟩

/-- **C4, counterexample.** The KFX pipeline indexes notes by their
*start* offset, not their end offset: a note with start position `"p:5"`
and end position `"p:9"` anchored at the end (9) of the sole surviving
highlight `(0, 9)` is not emitted at all — the output contains no item of
type `"note"`. -/
theorem C4_kfx_note_index_counterexample :
    kfx_parse_position (Note.mk "p:5" "p:9" "mynote").endPosition = some 9
    ∧ (kfx_process c4Sections [] [] [Ann.mk "p:0" "p:9" "t"]
        [Note.mk "p:5" "p:9" "mynote"]).map
        (fun items => items.filter (fun it => it.type = "note"))
      = some [] := by
  constructor
  · decide
  · decide

theorem mapOption_eq_none {α β : Type} (f : α → Option β) (l : List α) (a : α)
    (ha : a ∈ l) (hf : f a = none) : mapOption f l = none := by
  induction l with
  | nil => simp at ha
  | cons x xs ih =>
    rcases List.mem_cons.mp ha with rfl | hmem
    · simp [mapOption, hf]
    · cases hx : f x with
      | none => simp [mapOption, hx]
      | some b => simp [mapOption, hx, ih hmem]

/-- **C3, amended.** An annotation whose position string contains no
parseable integer makes the Position Codec yield an error (`none`) — no
default offset such as zero is ever substituted — and that error aborts
the *whole book's* extraction: the book's pipeline returns `none` (the
remaining annotations of the same book are not individually processed),
the batch loop marks exactly that book `failed`, and every other book of
the run is still processed. -/
theorem C3_malformed_position_amended (sections : List ContentSection)
    (pages : List (Int × String)) (toc : List TocSection)
    (anns : List Ann) (notes : List Note)
    (hbad : ∃ a ∈ anns, kfx_parse_position a.startPosition = none
      ∨ kfx_parse_position a.endPosition = none) :
    kfx_process sections pages toc anns notes = none
    ∧ ∀ pre post : List KfxBook,
        run_extraction (pre ++ ⟨sections, pages, toc, anns, notes⟩ :: post)
          = run_extraction pre ++ "failed" :: run_extraction post := by
  obtain ⟨a, ha, hpa⟩ := hbad
  have hf : kfx_parse_range a = none := by
    rcases hpa with h | h
    · simp [kfx_parse_range, h]
    · cases hs : kfx_parse_position a.startPosition with
      | none => simp [kfx_parse_range, hs]
      | some v => simp [kfx_parse_range, hs, h]
  have hm := mapOption_eq_none kfx_parse_range anns a ha hf
  have hproc : kfx_process sections pages toc anns notes = none := by
    unfold kfx_process
    cases hn : kfx_notes_by_end notes with
    | none => rfl
    | some nbe => simp [hn, hm]
  refine ⟨hproc, ?_⟩
  intro pre post
  simp [run_extraction, List.map_append, hproc]

/-- Witness for the amended C3: a book with one well-formed and one
malformed annotation fails as a whole. -/
theorem C3_malformed_position_witness :
    kfx_process c4Sections [] [] [Ann.mk "p:0" "p:9" "t", Ann.mk "bad" "bad" "u"] []
      = none :=
  (C3_malformed_position_amended c4Sections [] []
    [Ann.mk "p:0" "p:9" "t", Ann.mk "bad" "bad" "u"] []
    ⟨Ann.mk "bad" "bad" "u", by decide, Or.inl (by decide)⟩).1

/-- **C3, counterexample.** With one malformed annotation present, the
whole book's extraction fails (`none`) — the remaining well-formed
annotation of the same book is *not* still processed, contrary to the
claim; alone, the same well-formed annotation extracts fine. -/
theorem C3_book_abort_counterexample :
    kfx_process c4Sections [] [] [Ann.mk "p:0" "p:9" "t", Ann.mk "bad" "bad" "u"] []
      = none
    ∧ kfx_process c4Sections [] [] [Ann.mk "p:0" "p:9" "t"] []
      = some [⟨"t", "ABCDEFGHIJ", none, 0, none, none, "highlight"⟩] := by
  constructor
  · decide
  · decide

/-! ## Library Matcher (`extract_highlights.py`)

`difflib.SequenceMatcher(...).ratio()` is Python-stdlib code external to
this repository; it is modelled as an opaque scoring parameter `ratio`
returning an exact rational (the scores the claim exercises, 0.79 / 0.80,
are exactly representable floats).  The filesystem-dependent
`find_annotation_for_stem` is likewise a parameter. -/

/-- `str.lower()` (ASCII case mapping suffices for the claims). -/
def pyLower (s : String) : String := String.map Char.toLower s

structure TitleInfo where
  title : String
  has_kfx : Bool
  kfx_path : Option String
deriving DecidableEq, Repr

structure FuzzyResult where
  book_id : Nat
  title : String
  has_kfx : Bool
  kfx_path : Option String
  score : ℚ
deriving DecidableEq, Repr

/-- The best-score fold of `fuzzy_match_title` (lines 835-841): strict
`score > best_score`, so the first best entry wins ties. -/
def fuzzy_fold (ratio : String → String → ℚ) (kindleLower : String) :
    List (Nat × TitleInfo) → ℚ × Option (Nat × TitleInfo)
      → ℚ × Option (Nat × TitleInfo)
  | [], acc => acc
  | (i, info) :: rest, acc =>
    let score := ratio kindleLower (pyLower info.title)
    if score > acc.1 then fuzzy_fold ratio kindleLower rest (score, some (i, info))
    else fuzzy_fold ratio kindleLower rest acc

/-- `fuzzy_match_title(kindle_title, title_index, threshold=0.80)` (lines
828-852): the best match is accepted only when its score is ≥ the
threshold (boundary inclusive). -/
def fuzzy_match_title (ratio : String → String → ℚ) (kindle_title : String)
    (title_index : List (Nat × TitleInfo)) (threshold : ℚ) :
    Option FuzzyResult :=
  let res := fuzzy_fold ratio (pyLower kindle_title) title_index (0, none)
  match res.2 with
  | some p =>
    if res.1 ≥ threshold then
      some ⟨p.1, p.2.title, p.2.has_kfx, p.2.kfx_path, res.1⟩
    else none
  | none => none

/-- ASIN characters of the `_([A-Z0-9]{10,})$` pattern. -/
def isAsinChar (c : Char) : Bool :=
  ('A' ≤ c ∧ c ≤ 'Z') ∨ ('0' ≤ c ∧ c ≤ '9')

/-- `extract_asin(stem)`: the regex `_([A-Z0-9]{10,})$` matches exactly
when the maximal `[A-Z0-9]` suffix of the stem has length ≥ 10 and is
preceded by `'_'`; the captured group is that suffix. -/
def extract_asin (stem : String) : Option String :=
  let suffix := (stem.data.reverse.takeWhile isAsinChar).reverse
  if 10 ≤ suffix.length
      ∧ (stem.data.reverse.drop suffix.length).head? = some '_' then
    some (String.mk suffix)
  else none

/-- `kindle_stem_to_title(stem)`: strip the `_ASIN` suffix, replace the
`'~'` truncation marker with a space, strip. -/
def kindle_stem_to_title (stem : String) : String :=
  let rest := match extract_asin stem with
    | some a => stem.data.take (stem.data.length - (a.length + 1))
    | none => stem.data
  pyStrip (String.mk (rest.map (fun c => if c = '~' then ' ' else c)))

structure CalBook where
  title : String
  kfx_path : String
deriving DecidableEq, Repr

structure MatchedBook where
  stem : String
  asin : Option String
  calibre_title : String
  kfx_path : Option String
  yjr_path : String
  fuzzy : Bool
  score : ℚ
deriving DecidableEq, Repr

structure NoKfxBook where
  stem : String
  asin : Option String
  calibre_title : String
deriving DecidableEq, Repr

structure NoYjrBook where
  stem : String
  calibre_title : String
  kfx_path : Option String
deriving DecidableEq, Repr

/-- The four buckets a candidate stem can fall into in
`match_calibre_books` (lines 928-991). -/
inductive MatchOutcome where
  | matched (m : MatchedBook)
  | noKfx (m : NoKfxBook)
  | unmatched (s : String)
  | noYjr (m : NoYjrBook)
deriving DecidableEq, Repr

def lookupAssoc {β : Type} (m : List (String × β)) (k : String) : Option β :=
  (m.find? (fun p => p.1 = k)).map (fun p => p.2)

/-- The fuzzy-fallback arm of the per-stem matching (lines 963-991). -/
def match_one_fuzzy (ratio : String → String → ℚ)
    (title_index : List (Nat × TitleInfo)) (find_ann : String → Option String)
    (stem : String) (asin : Option String) : MatchOutcome :=
  match fuzzy_match_title ratio (kindle_stem_to_title stem) title_index (4/5) with
  | some f =>
    if f.has_kfx then
      match find_ann stem with
      | some y => .matched ⟨stem, asin, f.title, f.kfx_path, y, true, f.score⟩
      | none => .noYjr ⟨stem, f.title, f.kfx_path⟩
    else .noKfx ⟨stem, asin, f.title⟩
  | none => .unmatched stem

/-- The per-stem body of `match_calibre_books` (lines 928-991): exact ASIN
match first (`fuzzy: False, score: 1.0`), then ASIN-without-format, then
fuzzy title fallback. -/
def match_one (ratio : String → String → ℚ)
    (asin_to_kfx : List (String × CalBook)) (asin_to_title : List (String × String))
    (title_index : List (Nat × TitleInfo)) (find_ann : String → Option String)
    (stem : String) : MatchOutcome :=
  match extract_asin stem with
  | some a =>
    match lookupAssoc asin_to_kfx a with
    | some info =>
      match find_ann stem with
      | some y => .matched ⟨stem, some a, info.title, some info.kfx_path, y, false, 1⟩
      | none => .noYjr ⟨stem, info.title, some info.kfx_path⟩
    | none =>
      match lookupAssoc asin_to_title a with
      | some t => .noKfx ⟨stem, some a, t⟩
      | none => match_one_fuzzy ratio title_index find_ann stem (some a)
  | none => match_one_fuzzy ratio title_index find_ann stem none

/-- `match_calibre_books`: the candidate stems in order, each classified
into one of the four output lists. -/
def match_calibre_books (ratio : String → String → ℚ)
    (asin_to_kfx : List (String × CalBook)) (asin_to_title : List (String × String))
    (title_index : List (Nat × TitleInfo)) (find_ann : String → Option String)
    (stems : List String) :
    List MatchedBook × List NoKfxBook × List String × List NoYjrBook :=
  let outcomes := stems.map (match_one ratio asin_to_kfx asin_to_title title_index find_ann)
  (outcomes.filterMap (fun o => match o with | .matched m => some m | _ => none),
   outcomes.filterMap (fun o => match o with | .noKfx m => some m | _ => none),
   outcomes.filterMap (fun o => match o with | .unmatched s => some s | _ => none),
   outcomes.filterMap (fun o => match o with | .noYjr m => some m | _ => none))

/-- `to_process = list(asin_matched); if args.accept_fuzzy:
to_process.extend(fuzzy_matched)` (lines 1077-1080). -/
def to_process (matched : List MatchedBook) (accept_fuzzy : Bool) :
    List MatchedBook :=
  matched.filter (fun m => !m.fuzzy)
    ++ (if accept_fuzzy then matched.filter (fun m => m.fuzzy) else [])

theorem fuzzy_fold_lt (ratio : String → String → ℚ) (kl : String) (th : ℚ)
    (l : List (Nat × TitleInfo)) :
    ∀ acc : ℚ × Option (Nat × TitleInfo), acc.1 < th →
      (∀ e ∈ l, ratio kl (pyLower e.2.title) < th) →
      (fuzzy_fold ratio kl l acc).1 < th := by
  induction l with
  | nil =>
    intro acc hacc _
    simpa [fuzzy_fold] using hacc
  | cons e rest ih =>
    intro acc hacc hall
    obtain ⟨i, info⟩ := e
    by_cases hgt : ratio kl (pyLower info.title) > acc.1
    · rw [show fuzzy_fold ratio kl ((i, info) :: rest) acc
          = fuzzy_fold ratio kl rest (ratio kl (pyLower info.title), some (i, info)) by
        simp [fuzzy_fold, hgt]]
      exact ih _ (hall (i, info) (List.mem_cons_self _ _))
        (fun e2 he2 => hall e2 (List.mem_cons_of_mem _ he2))
    · rw [show fuzzy_fold ratio kl ((i, info) :: rest) acc
          = fuzzy_fold ratio kl rest acc by simp [fuzzy_fold, hgt]]
      exact ih acc hacc (fun e2 he2 => hall e2 (List.mem_cons_of_mem _ he2))

/-- **C9.** The Library Matcher accepts the best fuzzy title match only if
its similarity score is ≥ 0.80 (boundary inclusive); when every score is
below 0.80 (e.g. 0.79) there is no match; an identifier exactly present in
the catalog with a decodable copy and a located annotation file yields a
non-fuzzy match of confidence 1.0; every non-fuzzy match has score 1.0 and
is included in processing under both flag values, while fuzzy matches are
included only under the explicit fuzzy opt-in flag, never by default. -/
theorem C9_library_matcher (ratio : String → String → ℚ) :
    (∀ kt idx m, fuzzy_match_title ratio kt idx (4/5) = some m →
      (4/5 : ℚ) ≤ m.score)
    ∧ (∀ kt idx, (∀ e ∈ idx, ratio (pyLower kt) (pyLower e.2.title) < 4/5) →
        fuzzy_match_title ratio kt idx (4/5) = none)
    ∧ (∀ kt i info, ratio (pyLower kt) (pyLower info.title) = 4/5 →
        fuzzy_match_title ratio kt [(i, info)] (4/5)
          = some ⟨i, info.title, info.has_kfx, info.kfx_path, 4/5⟩)
    ∧ (∀ a2k a2t tidx fa stem stems a info y,
        extract_asin stem = some a → lookupAssoc a2k a = some info →
        fa stem = some y →
        (⟨stem, some a, info.title, some info.kfx_path, y, false, 1⟩ : MatchedBook)
          ∈ (match_calibre_books ratio a2k a2t tidx fa (stem :: stems)).1)
    ∧ (∀ a2k a2t tidx fa stems m,
        m ∈ (match_calibre_books ratio a2k a2t tidx fa stems).1 →
        m.fuzzy = false → m.score = 1)
    ∧ (∀ matched b (m : MatchedBook), m ∈ matched → m.fuzzy = false →
        m ∈ to_process matched b)
    ∧ (∀ matched b (m : MatchedBook), m ∈ to_process matched b →
        m.fuzzy = true → b = true) := by
  have hfuzzy_true : ∀ tidx fa stem asin m2,
      match_one_fuzzy ratio tidx fa stem asin = .matched m2 → m2.fuzzy = true := by
    intro tidx fa stem asin m2 hstem
    unfold match_one_fuzzy at hstem
    cases hfm : fuzzy_match_title ratio (kindle_stem_to_title stem) tidx (4/5) with
    | some f =>
      simp only [hfm] at hstem
      by_cases hhas : f.has_kfx = true
      · rw [if_pos hhas] at hstem
        cases hfa : fa stem with
        | some y =>
          simp only [hfa] at hstem
          obtain rfl : (⟨stem, asin, f.title, f.kfx_path, y, true, f.score⟩
              : MatchedBook) = m2 := by simpa using hstem
          rfl
        | none =>
          simp only [hfa] at hstem
          exact absurd hstem (by simp)
      · rw [if_neg hhas] at hstem
        exact absurd hstem (by simp)
    | none =>
      simp only [hfm] at hstem
      exact absurd hstem (by simp)
  refine ⟨?_, ?_, ?_, ?_, ?_, ?_, ?_⟩
  · intro kt idx m h
    simp only [fuzzy_match_title] at h
    cases hr : (fuzzy_fold ratio (pyLower kt) idx (0, none)).2 with
    | none =>
      simp only [hr] at h
      exact absurd h (by simp)
    | some p =>
      simp only [hr] at h
      by_cases hth : (fuzzy_fold ratio (pyLower kt) idx (0, none)).1 ≥ 4/5
      · rw [if_pos hth] at h
        obtain rfl := Option.some.inj h
        exact hth
      · rw [if_neg hth] at h
        exact absurd h (by simp)
  · intro kt idx hall
    have hlt := fuzzy_fold_lt ratio (pyLower kt) (4/5) idx (0, none)
      (by norm_num) hall
    simp only [fuzzy_match_title]
    cases hr : (fuzzy_fold ratio (pyLower kt) idx (0, none)).2 with
    | none => simp
    | some p =>
      simp only
      rw [if_neg (fun hge => absurd hlt (not_lt.mpr hge))]
  · intro kt i info h
    have h0 : ratio (pyLower kt) (pyLower info.title) > 0 := by
      rw [h]
      norm_num
    simp only [fuzzy_match_title, fuzzy_fold, h0, if_pos, h]
    norm_num
  · intro a2k a2t tidx fa stem stems a info y ha hl hf
    simp only [match_calibre_books, List.map_cons, List.filterMap_cons]
    rw [show match_one ratio a2k a2t tidx fa stem
        = .matched ⟨stem, some a, info.title, some info.kfx_path, y, false, 1⟩ by
      simp [match_one, ha, hl, hf]]
    exact List.mem_cons_self _ _
  · intro a2k a2t tidx fa stems m hm hfz
    simp only [match_calibre_books] at hm
    obtain ⟨o, ho, hom⟩ := List.mem_filterMap.mp hm
    obtain ⟨stem, _, hstem⟩ := List.mem_map.mp ho
    cases o with
    | matched m2 =>
      simp only [Option.some.injEq] at hom
      subst hom
      unfold match_one at hstem
      cases hasin : extract_asin stem with
      | some a =>
        simp only [hasin] at hstem
        cases hk : lookupAssoc a2k a with
        | some info =>
          simp only [hk] at hstem
          cases hfa : fa stem with
          | some y =>
            simp only [hfa] at hstem
            obtain rfl : (⟨stem, some a, info.title, some info.kfx_path, y,
                false, 1⟩ : MatchedBook) = m2 := by simpa using hstem
            rfl
          | none =>
            simp only [hfa] at hstem
            exact absurd hstem (by simp)
        | none =>
          simp only [hk] at hstem
          cases ht : lookupAssoc a2t a with
          | some t =>
            simp only [ht] at hstem
            exact absurd hstem (by simp)
          | none =>
            simp only [ht] at hstem
            have := hfuzzy_true tidx fa stem (some a) m2 hstem
            rw [this] at hfz
            simp at hfz
      | none =>
        simp only [hasin] at hstem
        have := hfuzzy_true tidx fa stem none m2 hstem
        rw [this] at hfz
        simp at hfz
    | noKfx m2 => exact absurd hom (by simp)
    | unmatched s => exact absurd hom (by simp)
    | noYjr m2 => exact absurd hom (by simp)
  · intro matched b m hm hfz
    refine List.mem_append_left _ ?_
    exact List.mem_filter.mpr ⟨hm, by simp [hfz]⟩
  · intro matched b m hm hfz
    rcases List.mem_append.mp hm with hleft | hright
    · have := (List.mem_filter.mp hleft).2
      rw [hfz] at this
      simp at this
    · cases b with
      | true => rfl
      | false => simp at hright

/-- Witness for C9 at concrete inputs: with every similarity score equal
to 0.79 the matcher returns no match; with the best score exactly 0.80 the
match is accepted (boundary inclusive). -/
theorem C9_library_matcher_witness :
    fuzzy_match_title (fun _ _ => (79/100 : ℚ)) "design patterns"
      [(1, ⟨"Design Patterns", true, some "/lib/b.kfx"⟩)] (4/5) = none
    ∧ fuzzy_match_title (fun _ _ => (4/5 : ℚ)) "design patterns"
      [(1, ⟨"Design Patterns", true, some "/lib/b.kfx"⟩)] (4/5)
      = some ⟨1, "Design Patterns", true, some "/lib/b.kfx", 4/5⟩ :=
  ⟨(C9_library_matcher (fun _ _ => (79/100 : ℚ))).2.1 "design patterns"
      [(1, ⟨"Design Patterns", true, some "/lib/b.kfx"⟩)]
      (fun _ _ => by norm_num),
   (C9_library_matcher (fun _ _ => (4/5 : ℚ))).2.2.1 "design patterns" 1
      ⟨"Design Patterns", true, some "/lib/b.kfx"⟩ rfl⟩

/-- Witness for C10 at a concrete input: the surviving range of
`[(0,10), (2,5)]` is drawn from the input list. -/
theorem C10_dedup_invariants_witness :
    ((0 : Int), (10 : Int), Ann.mk "a" "b" "c")
      ∈ [((0 : Int), (10 : Int), Ann.mk "a" "b" "c"),
         ((2 : Int), (5 : Int), Ann.mk "d" "e" "f")] :=
  (C10_dedup_invariants
      [((0 : Int), (10 : Int), Ann.mk "a" "b" "c"),
       ((2 : Int), (5 : Int), Ann.mk "d" "e" "f")]).2.1
    ((0 : Int), (10 : Int), Ann.mk "a" "b" "c") (by decide)
